import Mathlib

/- Verification development for the Yamaha PSS-790 skeleton driver fragments:
the ROM descrambling routine transmute_program_rom, the driver_start variant
whose descrambling loop is commented out, the interrupt hack timer callback,
and the timer schedule installed by machine_start.

ROM buffers are embedded as total functions from byte offsets to byte values;
the imperative loops become structural recursions that pass the buffer state
explicitly.  In the source, the chunk copy line reads from identifiers rom and
offset that are not declared in scope; following the PSR-400 original that the
routine was derived from, these are embedded as base and block_offset. -/

/-- Outer chunk size used by transmute_program_rom: 0x20000 bytes. -/
def chunk_size : Nat := 0x20000

/-- Inner block size used by transmute_program_rom: 0x100 bytes. -/
def block_size : Nat := 0x100

/-- Number of blocks per chunk, chunk_size / block_size. -/
def block_count : Nat := chunk_size / block_size

/-- MAME bitswap: the first listed source bit position becomes the most
significant bit of the result, so the result has one bit per list entry. -/
def bitswap (x : Nat) (bits : List Nat) : Nat :=
  bits.foldl (fun acc b => 2 * acc + (x >>> b) % 2) 0

/-- The PSS-790 wiring list from the source:
bitswap with 9 bits taken, in order, from positions 10, 15, 11, 9, 8, 13, 14, 16, 12. -/
def pss790_swap : List Nat := [10, 15, 11, 9, 8, 13, 14, 16, 12]

/-- The transmuted source offset computed in the inner loop of
transmute_program_rom: the 9-bit bitswap of the block offset, shifted left by 8. -/
def transmuted_offset (block_offset : Nat) : Nat :=
  bitswap block_offset pss790_swap <<< 8

/-- The permutation induced on 9-bit block indices: the bitswap applied to the
byte offset of the block with the given index. -/
def perm9 (b : Nat) : Nat := bitswap (b * block_size) pss790_swap

/-- Inverse of perm9, given by the inverse wiring list. -/
def inv9 (b : Nat) : Nat := bitswap (b * block_size) [9, 15, 10, 11, 8, 14, 16, 13, 12]

/-- Embeds std::copy_n from the temporary chunk at source index s, n bytes,
into the buffer dst at destination index d. -/
def copy_n (src : Nat → Nat) (s n : Nat) (dst : Nat → Nat) (d : Nat) : Nat → Nat :=
  fun a => if d ≤ a ∧ a < d + n then src (s + (a - d)) else dst a

/-- The inner loop of transmute_program_rom: for each of n blocks starting at
block_offset, copy block_size bytes from the chunk snapshot at the transmuted
offset into the buffer at the block offset, then advance by block_size. -/
def copy_blocks (chunk : Nat → Nat) : Nat → Nat → (Nat → Nat) → Nat → Nat
  | 0, _, base => base
  | n + 1, block_offset, base =>
      copy_blocks chunk n (block_offset + block_size)
        (copy_n chunk (transmuted_offset block_offset) block_size base block_offset)

/-- The outer loop of transmute_program_rom: one iteration per chunk; each
iteration snapshots the whole chunk before any of its blocks is overwritten,
then rewrites all block_count blocks of that chunk. -/
def transmute_chunks : Nat → Nat → (Nat → Nat) → Nat → Nat
  | 0, _, base => base
  | k + 1, block_offset, base =>
      transmute_chunks k (block_offset + chunk_size)
        (copy_blocks (fun i => base (block_offset + i)) block_count block_offset base)

/-- transmute_program_rom on a buffer of rom_size bytes: the while loop runs
once per started chunk, advancing by chunk_size each iteration. -/
def transmute_program_rom (rom_size : Nat) (base : Nat → Nat) : Nat → Nat :=
  transmute_chunks ((rom_size + chunk_size - 1) / chunk_size) 0 base

/-- The source offset that the transform reads for each destination offset:
same chunk, block index mapped through perm9, byte within block unchanged. -/
def addr_map (a : Nat) : Nat :=
  a / chunk_size * chunk_size + perm9 (a % chunk_size / block_size) * block_size + a % block_size

/-- Inverse of addr_map, using the inverse block permutation. -/
def addr_inv (a : Nat) : Nat :=
  a / chunk_size * chunk_size + inv9 (a % chunk_size / block_size) * block_size + a % block_size

/-- State left by the driver_start of the second source file: the program
region, and the locally allocated zero-filled 0x20000-byte vector.  The
descrambling loop in that file is commented out, so no write to the program
region remains in the function body. -/
structure DriverStartState where
  program : Nat → Nat
  buf_size : Nat
  buf : Nat → Nat

/-- Embeds driver_start of the second source file: reads the program region
pointer, allocates a zero vector of 0x20000 bytes, and performs no write to
the region. -/
def pss790_cpp_driver_start (program : Nat → Nat) : DriverStartState :=
  { program := program, buf_size := 0x20000, buf := fun _ => 0 }

/-- Register file of the emulated MN1880 CPU as exposed through
set_state_int and state_int: the MN1880_IF entry plus all other entries. -/
inductive MN1880Reg where
  | IF : MN1880Reg
  | other : Nat → MN1880Reg
deriving DecidableEq

/-- Embeds the interrupt_hack timer callback: set_state_int(MN1880_IF,
state_int(MN1880_IF) | (1 << 3)), leaving every other register untouched. -/
def interrupt_hack (s : MN1880Reg → Nat) : MN1880Reg → Nat :=
  fun r => if r = MN1880Reg.IF then s MN1880Reg.IF ||| (1 <<< 3) else s r

/-- attotime::from_msec, in attoseconds. -/
def attotime_from_msec (m : Nat) : Nat := m * 1000000000000000

/-- Delay and period of a periodic timer as passed to emu_timer adjust. -/
structure TimerSchedule where
  delay : Nat
  period : Nat

/-- The schedule installed by machine_start:
adjust(attotime::from_msec(1), 0, attotime::from_msec(1)). -/
def hack_timer_schedule : TimerSchedule :=
  { delay := attotime_from_msec 1, period := attotime_from_msec 1 }

/-- Modelled from the spec: the emu_timer scheduling semantics are not under
src (only the call site is); the host scheduler delivers the first callback
after the delay and the n-th callback at delay + (n - 1) * period, with no
skipped ticks. -/
def timer_fire_time (t : TimerSchedule) (n : Nat) : Nat :=
  t.delay + (n - 1) * t.period

theorem copy_blocks_miss (chunk : Nat → Nat) :
    ∀ (n o : Nat) (base : Nat → Nat) (a : Nat),
      a < o ∨ o + n * block_size ≤ a →
      copy_blocks chunk n o base a = base a := by
  intro n
  induction n with
  | zero => intro o base a _; rfl
  | succ m ih =>
      intro o base a h
      have hbs : block_size = 256 := rfl
      simp only [copy_blocks]
      rw [ih (o + block_size) _ a (by rw [hbs] at h ⊢; omega)]
      simp only [copy_n]
      rw [if_neg (by rw [hbs] at h ⊢; omega)]

theorem copy_blocks_hit (chunk : Nat → Nat) :
    ∀ (n o i j : Nat) (base : Nat → Nat), i < n → j < block_size →
      copy_blocks chunk n o base (o + i * block_size + j)
        = chunk (transmuted_offset (o + i * block_size) + j) := by
  intro n
  induction n with
  | zero => intro o i j base hi _; exact absurd hi (Nat.not_lt_zero i)
  | succ m ih =>
      intro o i j base hi hj
      have hbs : block_size = 256 := rfl
      simp only [copy_blocks]
      cases i with
      | zero =>
          simp only [Nat.zero_mul, Nat.add_zero]
          rw [copy_blocks_miss chunk m (o + block_size) _ _
            (Or.inl (by rw [hbs] at hj ⊢; omega))]
          simp only [copy_n]
          rw [if_pos (by rw [hbs] at hj ⊢; omega)]
          congr 1
          omega
      | succ q =>
          have h1 : o + (q + 1) * block_size + j = o + block_size + q * block_size + j := by
            ring
          have h2 : o + (q + 1) * block_size = o + block_size + q * block_size := by
            ring
          rw [h1, h2]
          exact ih (o + block_size) q j _ (by omega) hj

theorem transmute_chunks_lt (k : Nat) :
    ∀ (o : Nat) (base : Nat → Nat) (a : Nat), a < o →
      transmute_chunks k o base a = base a := by
  induction k with
  | zero => intro o base a _; rfl
  | succ m ih =>
      intro o base a h
      have hcs : chunk_size = 131072 := rfl
      simp only [transmute_chunks]
      rw [ih (o + chunk_size) _ a (by omega)]
      exact copy_blocks_miss _ block_count o base a (Or.inl h)

theorem transmute_chunks_hit (k : Nat) :
    ∀ (o c b j : Nat) (base : Nat → Nat), c < k → b < block_count → j < block_size →
      transmute_chunks k o base (o + c * chunk_size + b * block_size + j)
        = base (o + c * chunk_size + (transmuted_offset (o + c * chunk_size + b * block_size) + j)) := by
  induction k with
  | zero => intro o c b j base hc _ _; exact absurd hc (Nat.not_lt_zero c)
  | succ m ih =>
      intro o c b j base hc hb hj
      have hcs : chunk_size = 131072 := rfl
      have hbs : block_size = 256 := rfl
      have hbc : block_count = 512 := rfl
      simp only [transmute_chunks]
      cases c with
      | zero =>
          simp only [Nat.zero_mul, Nat.add_zero]
          rw [transmute_chunks_lt m (o + chunk_size) _ _
            (by rw [hbs] at hj ⊢; rw [hbc] at hb; rw [hcs]; omega)]
          rw [copy_blocks_hit _ block_count o b j base hb hj]
      | succ q =>
          have h1 : o + (q + 1) * chunk_size + b * block_size + j
              = o + chunk_size + q * chunk_size + b * block_size + j := by ring
          have h2 : o + (q + 1) * chunk_size + b * block_size
              = o + chunk_size + q * chunk_size + b * block_size := by ring
          rw [h1, h2]
          rw [ih (o + chunk_size) q b j _ (by omega) hb hj]
          have hmul : block_count * block_size = chunk_size := by decide
          rw [copy_blocks_miss _ block_count o base _
            (Or.inr (by rw [hmul]; omega))]
          apply congrArg
          ring

theorem foldl_bits_congr (x y : Nat) :
    ∀ (l : List Nat) (acc : Nat), (∀ b ∈ l, (x >>> b) % 2 = (y >>> b) % 2) →
      l.foldl (fun a b => 2 * a + (x >>> b) % 2) acc
        = l.foldl (fun a b => 2 * a + (y >>> b) % 2) acc := by
  intro l
  induction l with
  | nil => intro acc _; rfl
  | cons b t ih =>
      intro acc h
      simp only [List.foldl]
      rw [h b (by simp)]
      exact ih _ (fun c hc => h c (by simp [hc]))

theorem bitswap_congr (x y : Nat) (bits : List Nat)
    (h : ∀ b ∈ bits, (x >>> b) % 2 = (y >>> b) % 2) : bitswap x bits = bitswap y bits :=
  foldl_bits_congr x y bits 0 h

theorem foldl_bits_lt (x : Nat) :
    ∀ (l : List Nat) (acc : Nat),
      l.foldl (fun a b => 2 * a + (x >>> b) % 2) acc < (acc + 1) * 2 ^ l.length := by
  intro l
  induction l with
  | nil => intro acc; simp
  | cons b t ih =>
      intro acc
      simp only [List.foldl, List.length_cons]
      have h1 := ih (2 * acc + (x >>> b) % 2)
      have h2 : (x >>> b) % 2 < 2 := Nat.mod_lt _ (by omega)
      have h3 : (2 * acc + (x >>> b) % 2 + 1) * 2 ^ t.length ≤ (acc + 1) * 2 ^ (t.length + 1) := by
        rw [pow_succ]
        calc (2 * acc + (x >>> b) % 2 + 1) * 2 ^ t.length
            ≤ ((acc + 1) * 2) * 2 ^ t.length := Nat.mul_le_mul_right _ (by omega)
          _ = (acc + 1) * (2 ^ t.length * 2) := by ring
      exact lt_of_lt_of_le h1 h3

theorem bitswap_lt (x : Nat) (l : List Nat) : bitswap x l < 2 ^ l.length := by
  have h := foldl_bits_lt x l 0
  simpa [bitswap] using h

theorem perm9_lt (b : Nat) : perm9 b < 512 := by
  have h := bitswap_lt (b * block_size) pss790_swap
  norm_num [pss790_swap] at h
  exact h

theorem inv9_lt (b : Nat) : inv9 b < 512 := by
  have h := bitswap_lt (b * block_size) [9, 15, 10, 11, 8, 14, 16, 13, 12]
  norm_num at h
  exact h

theorem shift_add_high (c r b d : Nat) (hd : 0 < d) :
    ((c * (2 ^ b * 2 ^ d) + r) >>> b) % 2 = (r >>> b) % 2 := by
  rw [Nat.shiftRight_eq_div_pow, Nat.shiftRight_eq_div_pow]
  have h1 : c * (2 ^ b * 2 ^ d) + r = r + (c * 2 ^ d) * 2 ^ b := by ring
  rw [h1, Nat.add_mul_div_right _ _ (Nat.two_pow_pos b)]
  obtain ⟨e, rfl⟩ : ∃ e, d = e + 1 := ⟨d - 1, by omega⟩
  have h2 : r / 2 ^ b + c * 2 ^ (e + 1) = r / 2 ^ b + c * 2 ^ e * 2 := by ring
  rw [h2, Nat.add_mul_mod_self_right]

theorem shift_chunk_bit (c r b : Nat) (hb : b < 17) :
    ((c * chunk_size + r) >>> b) % 2 = (r >>> b) % 2 := by
  have h17 : chunk_size = 2 ^ b * 2 ^ (17 - b) := by
    rw [← pow_add]
    have hb2 : b + (17 - b) = 17 := by omega
    rw [hb2]
    norm_num [chunk_size]
  rw [h17]
  exact shift_add_high c r b (17 - b) (by omega)

theorem transmuted_offset_add_chunk (c r : Nat) :
    transmuted_offset (c * chunk_size + r) = transmuted_offset r := by
  rw [transmuted_offset, transmuted_offset]
  congr 1
  apply bitswap_congr
  intro b hb
  simp only [pss790_swap] at hb
  fin_cases hb <;> exact shift_chunk_bit c r _ (by norm_num)

theorem transmuted_offset_block (c b : Nat) :
    transmuted_offset (c * chunk_size + b * block_size) = perm9 b * block_size := by
  rw [transmuted_offset_add_chunk]
  rw [transmuted_offset, Nat.shiftLeft_eq]
  rfl

theorem transmute_chunks_eq (k : Nat) (base : Nat → Nat) (a : Nat) (ha : a < k * chunk_size) :
    transmute_chunks k 0 base a = base (addr_map a) := by
  have hcs : chunk_size = 131072 := rfl
  have hbs : block_size = 256 := rfl
  have hbc : block_count = 512 := rfl
  have h1 : a = 0 + a / chunk_size * chunk_size + a % chunk_size / block_size * block_size
      + a % block_size := by
    rw [hcs, hbs]; omega
  have hc : a / chunk_size < k := by
    rw [hcs]; rw [hcs] at ha; omega
  have hb : a % chunk_size / block_size < block_count := by
    rw [hcs, hbs, hbc]; omega
  have hj : a % block_size < block_size := by
    rw [hbs]; omega
  have h2 := transmute_chunks_hit k 0 (a / chunk_size) (a % chunk_size / block_size)
    (a % block_size) base hc hb hj
  rw [← h1] at h2
  rw [h2]
  simp only [Nat.zero_add] at h2 ⊢
  rw [transmuted_offset_block]
  simp only [addr_map]
  apply congrArg
  ring

theorem transmute_program_rom_eq (rom_size : Nat) (base : Nat → Nat) (a : Nat)
    (hm : rom_size % chunk_size = 0) (ha : a < rom_size) :
    transmute_program_rom rom_size base a = base (addr_map a) := by
  have hcs : chunk_size = 131072 := rfl
  rw [transmute_program_rom]
  have hk : (rom_size + chunk_size - 1) / chunk_size = rom_size / chunk_size := by
    rw [hcs] at hm ⊢; omega
  rw [hk]
  refine transmute_chunks_eq _ base a ?_
  rw [hcs] at hm ⊢
  omega

set_option maxRecDepth 4000 in
theorem inv9_perm9 : ∀ b, b < 512 → inv9 (perm9 b) = b := by decide

set_option maxRecDepth 4000 in
theorem perm9_inv9 : ∀ b, b < 512 → perm9 (inv9 b) = b := by decide

theorem addr_map_decomp (c b j : Nat) (hb : b < 512) (hj : j < 256) :
    addr_map (c * chunk_size + b * block_size + j) = c * chunk_size + perm9 b * block_size + j := by
  have hcs : chunk_size = 131072 := rfl
  have hbs : block_size = 256 := rfl
  have e1 : (c * chunk_size + b * block_size + j) / chunk_size = c := by
    rw [hcs, hbs]; omega
  have e2 : (c * chunk_size + b * block_size + j) % chunk_size / block_size = b := by
    rw [hcs, hbs]; omega
  have e3 : (c * chunk_size + b * block_size + j) % block_size = j := by
    rw [hcs, hbs]; omega
  rw [addr_map, e1, e2, e3]

theorem addr_inv_decomp (c b j : Nat) (hb : b < 512) (hj : j < 256) :
    addr_inv (c * chunk_size + b * block_size + j) = c * chunk_size + inv9 b * block_size + j := by
  have hcs : chunk_size = 131072 := rfl
  have hbs : block_size = 256 := rfl
  have e1 : (c * chunk_size + b * block_size + j) / chunk_size = c := by
    rw [hcs, hbs]; omega
  have e2 : (c * chunk_size + b * block_size + j) % chunk_size / block_size = b := by
    rw [hcs, hbs]; omega
  have e3 : (c * chunk_size + b * block_size + j) % block_size = j := by
    rw [hcs, hbs]; omega
  rw [addr_inv, e1, e2, e3]

theorem addr_decomp_self (a : Nat) :
    a = a / chunk_size * chunk_size + a % chunk_size / block_size * block_size + a % block_size := by
  have hcs : chunk_size = 131072 := rfl
  have hbs : block_size = 256 := rfl
  rw [hcs, hbs]; omega

theorem addr_inv_addr_map (a : Nat) : addr_inv (addr_map a) = a := by
  have hcs : chunk_size = 131072 := rfl
  have hbs : block_size = 256 := rfl
  have hb : a % chunk_size / block_size < 512 := by rw [hcs, hbs]; omega
  have hj : a % block_size < 256 := by rw [hbs]; omega
  rw [addr_map, addr_inv_decomp _ _ _ (perm9_lt _) hj,
    inv9_perm9 _ hb]
  exact (addr_decomp_self a).symm

theorem addr_map_addr_inv (a : Nat) : addr_map (addr_inv a) = a := by
  have hcs : chunk_size = 131072 := rfl
  have hbs : block_size = 256 := rfl
  have hb : a % chunk_size / block_size < 512 := by rw [hcs, hbs]; omega
  have hj : a % block_size < 256 := by rw [hbs]; omega
  rw [addr_inv, addr_map_decomp _ _ _ (inv9_lt _) hj,
    perm9_inv9 _ hb]
  exact (addr_decomp_self a).symm

theorem addr_map_lt (rom_size a : Nat) (hm : rom_size % chunk_size = 0) (ha : a < rom_size) :
    addr_map a < rom_size := by
  have hcs : chunk_size = 131072 := rfl
  have hbs : block_size = 256 := rfl
  have hp := perm9_lt (a % chunk_size / block_size)
  rw [addr_map, hcs, hbs]
  rw [hcs] at hm
  rw [hbs, hcs] at hp
  omega

theorem addr_inv_lt (rom_size a : Nat) (hm : rom_size % chunk_size = 0) (ha : a < rom_size) :
    addr_inv a < rom_size := by
  have hcs : chunk_size = 131072 := rfl
  have hbs : block_size = 256 := rfl
  have hp := inv9_lt (a % chunk_size / block_size)
  rw [addr_inv, hcs, hbs]
  rw [hcs] at hm
  rw [hbs, hcs] at hp
  omega

/-- C1: for every 256-byte block at destination offset c * chunk_size + b * block_size
within a chunk, the transform copies its bytes from the permuted source offset
(the remapped 9-bit block index shifted left by 8) of the snapshot of the whole
chunk taken before any block of that chunk is overwritten, so each output byte
equals the original input byte at the permuted offset of the same chunk even
though the block copies happen in place. -/
theorem C1_block_from_chunk_snapshot (rom_size : Nat) (base : Nat → Nat) (c b j : Nat)
    (hm : rom_size % chunk_size = 0) (hc : (c + 1) * chunk_size ≤ rom_size)
    (hb : b < block_count) (hj : j < block_size) :
    transmute_program_rom rom_size base (c * chunk_size + b * block_size + j)
      = base (c * chunk_size + perm9 b * block_size + j) := by
  have hcs : chunk_size = 131072 := rfl
  have hbs : block_size = 256 := rfl
  have hbc : block_count = 512 := rfl
  have ha : c * chunk_size + b * block_size + j < rom_size := by
    rw [hbc] at hb
    rw [hbs] at hj ⊢
    rw [hcs] at hc ⊢
    omega
  rw [transmute_program_rom_eq rom_size base _ hm ha]
  rw [addr_map_decomp c b j (by rw [← hbc]; exact hb) (by rw [← hbs]; exact hj)]

/-- Witness for C1 at rom_size 0x20000, identity buffer, chunk 0, block 1, byte 0. -/
theorem C1_block_from_chunk_snapshot_witness :
    transmute_program_rom 131072 (fun a => a) (0 * chunk_size + 1 * block_size + 0)
      = (fun a => a) (0 * chunk_size + perm9 1 * block_size + 0) :=
  C1_block_from_chunk_snapshot 131072 (fun a => a) 0 1 0 (by decide) (by decide)
    (by decide) (by decide)

/-- C2: the fixed 9-bit bitswap wiring induces an injective map on the 512
possible block indices, hence a bijection of the chunk blocks. -/
theorem C2_perm9_injective (i j : Nat) (hi : i < 512) (hj : j < 512)
    (h : perm9 i = perm9 j) : i = j := by
  have h1 := inv9_perm9 i hi
  have h2 := inv9_perm9 j hj
  rw [← h1, ← h2, h]

/-- Witness for C2 at i = j = 3. -/
theorem C2_perm9_injective_witness : (3 : Nat) = 3 :=
  C2_perm9_injective 3 3 (by decide) (by decide) rfl

/-- C3: for input sizes that are exact multiples of chunk_size, the transform
reads each output byte from addr_map, and addr_map is a bijection of the offset
range with explicit inverse addr_inv, so every input byte is written to exactly
one destination offset: the output is a permutation of the input bytes. -/
theorem C3_transform_is_permutation (rom_size : Nat) (base : Nat → Nat)
    (hm : rom_size % chunk_size = 0) :
    (∀ a, a < rom_size → transmute_program_rom rom_size base a = base (addr_map a)) ∧
    (∀ a, a < rom_size → addr_map a < rom_size) ∧
    (∀ a, a < rom_size → addr_inv a < rom_size) ∧
    (∀ a, addr_inv (addr_map a) = a) ∧
    (∀ a, addr_map (addr_inv a) = a) :=
  ⟨fun a ha => transmute_program_rom_eq rom_size base a hm ha,
   fun a ha => addr_map_lt rom_size a hm ha,
   fun a ha => addr_inv_lt rom_size a hm ha,
   addr_inv_addr_map,
   addr_map_addr_inv⟩

/-- Witness for C3 at rom_size 0x20000, identity buffer, offset 512. -/
theorem C3_transform_is_permutation_witness :
    transmute_program_rom 131072 (fun a => a) 512 = (fun a => a) (addr_map 512) ∧
    addr_map 512 < 131072 ∧ addr_inv (addr_map 512) = 512 := by
  have h := C3_transform_is_permutation 131072 (fun a => a) (by decide)
  exact ⟨h.1 512 (by decide), h.2.1 512 (by decide), h.2.2.2.1 512⟩

/-- C4 counterexample: the outer chunks are not 32 KiB.  On a one-chunk
identity buffer the output byte at offset 0x400 is read from offset 0x10000,
which lies in a different 32 KiB-sized piece than 0x400, so the transform does
not operate within 32 KiB chunks. -/
theorem C4_counterexample :
    transmute_program_rom 131072 (fun a => a) 1024 = 65536 ∧
    1024 / 32768 ≠ 65536 / 32768 := by
  constructor
  · have h := transmute_program_rom_eq 131072 (fun a => a) 1024 (by decide) (by decide)
    rw [h]
    have e : addr_map 1024 = 65536 := by decide
    rw [e]
  · decide

/-- C4 (amended): the transform partitions the buffer into fixed-size outer
chunks of 0x20000 bytes (128 KiB, not 32 KiB) and 256-byte inner blocks, and
processes every chunk: each output byte is read from within the same
0x20000-byte chunk, at the same byte position within its 256-byte block. -/
theorem C4_partition (rom_size : Nat) (base : Nat → Nat) (a : Nat)
    (hm : rom_size % chunk_size = 0) (ha : a < rom_size) :
    chunk_size = 0x20000 ∧ block_size = 0x100 ∧
    transmute_program_rom rom_size base a = base (addr_map a) ∧
    addr_map a / chunk_size = a / chunk_size ∧
    addr_map a % block_size = a % block_size := by
  refine ⟨rfl, rfl, transmute_program_rom_eq rom_size base a hm ha, ?_, ?_⟩
  · have hcs : chunk_size = 131072 := rfl
    have hbs : block_size = 256 := rfl
    have hp := perm9_lt (a % chunk_size / block_size)
    rw [hcs, hbs] at hp
    rw [addr_map, hcs, hbs]
    omega
  · have hcs : chunk_size = 131072 := rfl
    have hbs : block_size = 256 := rfl
    have hp := perm9_lt (a % chunk_size / block_size)
    rw [hcs, hbs] at hp
    rw [addr_map, hcs, hbs]
    omega

/-- Witness for C4 (amended) at rom_size 0x20000, identity buffer, offset 300. -/
theorem C4_partition_witness :
    chunk_size = 0x20000 ∧ block_size = 0x100 ∧
    transmute_program_rom 131072 (fun a => a) 300 = (fun a => a) (addr_map 300) ∧
    addr_map 300 / chunk_size = 300 / chunk_size ∧
    addr_map 300 % block_size = 300 % block_size :=
  C4_partition 131072 (fun a => a) 300 (by decide) (by decide)

/-- C5 counterexample: the wiring claimed by the spec does not match the code.
If logical bit 15 mapped to physical input A16, the permuted offset of 0x8000
would be 0x10000, and if logical bit 16 mapped to physical input A12, the
permuted offset of 0x10000 would be 0x1000; the code instead maps 0x8000 to
itself (bit 15 participates in the 9-bit index and is wired to itself) and
0x10000 to 0x200. -/
theorem C5_counterexample :
    transmuted_offset 0x8000 = 0x8000 ∧ transmuted_offset 0x8000 ≠ 0x10000 ∧
    transmuted_offset 0x10000 = 0x200 ∧ transmuted_offset 0x10000 ≠ 0x1000 :=
  ⟨by decide, by decide, by decide, by decide⟩

/-- C5 (amended): the permuted offset treats the block offset as a 9-bit index
over address bits 8 to 16 inclusive (bit 15 included, wired to itself), remapped
by the fixed table in which output bit 16 takes input bit 10, 15 takes 15,
14 takes 11, 13 takes 9, 12 takes 8, 11 takes 13, 10 takes 14, 9 takes 16 and
8 takes 12, with the 9-bit result left-shifted by 8. -/
theorem C5_wiring (o : Nat) :
    transmuted_offset o =
      (o >>> 10) % 2 * 0x10000 + (o >>> 15) % 2 * 0x8000 + (o >>> 11) % 2 * 0x4000 +
      (o >>> 9) % 2 * 0x2000 + (o >>> 8) % 2 * 0x1000 + (o >>> 13) % 2 * 0x800 +
      (o >>> 14) % 2 * 0x400 + (o >>> 16) % 2 * 0x200 + (o >>> 12) % 2 * 0x100 := by
  simp only [transmuted_offset, bitswap, pss790_swap, List.foldl, Nat.shiftLeft_eq]
  ring

/-- C6 counterexample: the transform is not idempotent.  On a one-chunk
identity buffer, applying the transform twice gives a different byte at offset
0x100 than applying it once. -/
theorem C6_counterexample :
    transmute_program_rom 131072 (transmute_program_rom 131072 (fun a => a)) 256
      ≠ transmute_program_rom 131072 (fun a => a) 256 := by
  have h1 := transmute_program_rom_eq 131072 (fun a => a) 256 (by decide) (by decide)
  have h2 := transmute_program_rom_eq 131072 (transmute_program_rom 131072 (fun a => a)) 256
    (by decide) (by decide)
  have h3 := transmute_program_rom_eq 131072 (fun a => a) 4096 (by decide) (by decide)
  have e1 : addr_map 256 = 4096 := by decide
  have e2 : addr_map 4096 = 256 := by decide
  rw [h2, e1, h3, e2, h1, e1]
  decide

/-- C6 (amended): the transform is pure and deterministic but not idempotent:
applying it twice permutes each chunk by the square of the block permutation,
reading each output byte through addr_map composed with itself, which differs
from a single application; it must be run exactly once per affected region. -/
theorem C6_double_application (rom_size : Nat) (base : Nat → Nat) (a : Nat)
    (hm : rom_size % chunk_size = 0) (ha : a < rom_size) :
    transmute_program_rom rom_size (transmute_program_rom rom_size base) a
      = base (addr_map (addr_map a)) := by
  rw [transmute_program_rom_eq rom_size _ a hm ha]
  exact transmute_program_rom_eq rom_size base (addr_map a) hm (addr_map_lt rom_size a hm ha)

/-- Witness for C6 (amended) at rom_size 0x20000, identity buffer, offset 512. -/
theorem C6_double_application_witness :
    transmute_program_rom 131072 (transmute_program_rom 131072 (fun a => a)) 512
      = (fun a => a) (addr_map (addr_map 512)) :=
  C6_double_application 131072 (fun a => a) 512 (by decide) (by decide)

/-- C7: in the driver variant whose permutation table is unconfirmed (the
second source file, where the descrambling loop in driver_start is commented
out), driver_start leaves every byte of the program ROM region unchanged. -/
theorem C7_rom_unchanged (program : Nat → Nat) (a : Nat) :
    (pss790_cpp_driver_start program).program a = program a := rfl

/-- C8: with the schedule installed by machine_start (first expiry after
1 millisecond, then a fixed 1 millisecond period), the n-th callback fires at
exactly n milliseconds after machine start, for every n at least 1, with no
tick skipped. -/
theorem C8_timer_every_millisecond (n : Nat) (hn : 1 ≤ n) :
    timer_fire_time hack_timer_schedule n = n * attotime_from_msec 1 := by
  simp only [timer_fire_time, hack_timer_schedule, attotime_from_msec, one_mul]
  omega

/-- Witness for C8 at n = 5. -/
theorem C8_timer_every_millisecond_witness :
    timer_fire_time hack_timer_schedule 5 = 5 * attotime_from_msec 1 :=
  C8_timer_every_millisecond 5 (by decide)

/-- C9: each callback invocation ORs exactly bit 3 into the MN1880_IF register:
the new MN1880_IF value is the old value OR 8, bit 3 of the result is set,
every other bit of MN1880_IF is unchanged, and every other register keeps its
previous value. -/
theorem C9_callback_sets_only_bit3 (s : MN1880Reg → Nat) :
    interrupt_hack s MN1880Reg.IF = s MN1880Reg.IF ||| 8 ∧
    Nat.testBit (interrupt_hack s MN1880Reg.IF) 3 = true ∧
    (∀ k, k ≠ 3 →
      Nat.testBit (interrupt_hack s MN1880Reg.IF) k = Nat.testBit (s MN1880Reg.IF) k) ∧
    (∀ r, r ≠ MN1880Reg.IF → interrupt_hack s r = s r) := by
  have hsh : (1 <<< 3 : Nat) = 8 := by decide
  have hif : interrupt_hack s MN1880Reg.IF = s MN1880Reg.IF ||| 8 := by
    simp [interrupt_hack, hsh]
  refine ⟨hif, ?_, ?_, ?_⟩
  · rw [hif, Nat.testBit_or]
    have h8 : Nat.testBit 8 3 = true := by decide
    rw [h8, Bool.or_true]
  · intro k hk
    rw [hif, Nat.testBit_or]
    have h8 : Nat.testBit 8 k = false := by
      have he : (8 : Nat) = 2 ^ 3 := by norm_num
      rw [he]
      exact Nat.testBit_two_pow_of_ne (Ne.symm hk)
    rw [h8, Bool.or_false]
  · intro r hr
    simp [interrupt_hack, hr]

/-- Witness for C9 with all registers holding 17, other bit 5, other register 2. -/
theorem C9_callback_sets_only_bit3_witness :
    interrupt_hack (fun _ => 17) MN1880Reg.IF = 17 ||| 8 ∧
    Nat.testBit (interrupt_hack (fun _ => 17) MN1880Reg.IF) 5 = Nat.testBit 17 5 ∧
    interrupt_hack (fun _ => 17) (MN1880Reg.other 2) = 17 := by
  have h := C9_callback_sets_only_bit3 (fun _ => 17)
  exact ⟨h.1, h.2.2.1 5 (by decide), h.2.2.2 (MN1880Reg.other 2) (by decide)⟩

/-- C10: every read from the temporary chunk buffer is in bounds: for every
block offset, the transmuted source offset plus the 256-byte block length never
exceeds the chunk size, so no block copy reads past the end of the chunk copy. -/
theorem C10_block_reads_in_bounds (block_offset : Nat) :
    transmuted_offset block_offset + block_size ≤ chunk_size := by
  have h := bitswap_lt block_offset pss790_swap
  have h9 : pss790_swap.length = 9 := rfl
  have h29 : (2 : Nat) ^ 9 = 512 := by norm_num
  rw [h9, h29] at h
  have hb : block_size = 256 := rfl
  have hc : chunk_size = 131072 := rfl
  have h28 : (2 : Nat) ^ 8 = 256 := by norm_num
  rw [transmuted_offset, Nat.shiftLeft_eq, hb, hc, h28]
  omega
